import Mathlib

/-!
Verification of the `awsipranges` prefix-collection core.

The Python source (src/awsipranges/) is shallowly embedded below:

* `IPNetwork` models `ipaddress.IPv4Network` / `IPv6Network` values as a
  version tag (4 or 6), the network address as a natural number, and the
  prefix length.  Machine-level address arithmetic is `Nat` arithmetic with
  explicit powers of two.
* `PrefixRecord` models `AWSIPPrefix` (`models/awsipprefix.py`): the abstract
  base class and its two concrete subclasses are collapsed into one record
  type carrying the version tag inside its network, as the Python subclasses
  differ only in that tag.  The Python field `_prefix` is named `network`
  here (`prefix` is reserved in Lean).
* `AWSIPPrefixes` models the collection class (`models/awsipprefixes.py`).
  Python exceptions (`KeyError`, `ValueError`, `AssertionError`,
  `TypeError`) are modelled by `Option`/`Except String`: `none` / `.error`
  means the Python code raised.
* Python's `list.sort()` / `sorted()` (Timsort, comparing with `__lt__`) is
  modelled by `List.insertionSort`: both produce the unique sorted
  permutation because the orders used here are antisymmetric, which is
  proved below (`recordLe` instances, `sortRecords_eq_of_pairwise_gt`).
* `datetime` values are opaque to the collection logic and are modelled as
  `Option Nat` timestamps; `frozenset` values are modelled as `Finset`.
-/

namespace AWSIPRanges

/-- An IP network value: IP version (4 or 6), network address as an
unsigned integer, and prefix length.  Models `IPv4Network`/`IPv6Network`. -/
@[ext]
structure IPNetwork where
  version : Nat
  addr : Nat
  prefixlen : Nat
deriving DecidableEq, Repr

/-- Address width in bits for an IP version: 32 for IPv4, 128 for IPv6. -/
def addrWidth (version : Nat) : Nat := if version = 4 then 32 else 128

/-- Keep the leading `L` bits of `addr` and zero the rest (network masking,
as `ip_network`/`supernet` do on the `addr` integer). -/
def maskAddr (version addr L : Nat) : Nat :=
  addr / 2 ^ (addrWidth version - L) * 2 ^ (addrWidth version - L)

/-- Models `subnet.supernet(new_prefix=L)`: the containing network with
prefix length `L` and the address masked accordingly. -/
def IPNetwork.supernet (n : IPNetwork) (L : Nat) : IPNetwork :=
  ⟨n.version, maskAddr n.version n.addr L, L⟩

/-- Models `utils.supernets`: `range(subnet.prefixlen, 0, -1)` is the list
`[p, p-1, ..., 1]`; `downRange p` is that descending range. -/
def downRange : Nat → List Nat
  | 0 => []
  | p + 1 => (p + 1) :: downRange p

/-- Python `IPv4Network.__lt__` between same-version networks: compare the
network address, then the netmask (equivalently the prefix length). -/
def netLt (m n : IPNetwork) : Bool :=
  if m.addr ≠ n.addr then decide (m.addr < n.addr)
  else decide (m.prefixlen < n.prefixlen)

/-- One AWS IP prefix record, modelling `AWSIPPrefix` with its fields
`_prefix` (here `network`), `_region`, `_network_border_group` and
`_services`. -/
structure PrefixRecord where
  network : IPNetwork
  region : String
  network_border_group : String
  services : List String
deriving DecidableEq, Repr

/-- Python string comparison (code-point lexicographic), evaluated on the
underlying character list so that it reduces in the kernel; it agrees with
the `String` order (`strLt_iff`). -/
def strLt (a b : String) : Bool := decide (a.data < b.data)

/-- The non-strict string order Python sorting induces from `<`. -/
def strLe (a b : String) : Prop := strLt b a = false

instance : DecidableRel strLe := fun a b => by
  unfold strLe; infer_instance

/-- Python tuple comparison on the `services` tuples: find the first
position where the elements differ and compare those elements; if one tuple
is a proper leading part of the other, the shorter one is smaller. -/
def tupleLt : List String → List String → Bool
  | [], [] => false
  | [], _ :: _ => true
  | _ :: _, [] => false
  | a :: as, b :: bs => if a = b then tupleLt as bs else strLt a b

/-- Models `AWSIPPrefix.__lt__` between two records (the sort order):
IP version, then network address, then prefix length, then region, then
network border group, then services. -/
def recordLt (a b : PrefixRecord) : Bool :=
  if a.network.version ≠ b.network.version then
    decide (a.network.version < b.network.version)
  else if a.network.addr ≠ b.network.addr then
    decide (a.network.addr < b.network.addr)
  else if a.network.prefixlen ≠ b.network.prefixlen then
    decide (a.network.prefixlen < b.network.prefixlen)
  else if a.region ≠ b.region then strLt a.region b.region
  else if a.network_border_group ≠ b.network_border_group then
    strLt a.network_border_group b.network_border_group
  else if a.services ≠ b.services then tupleLt a.services b.services
  else false

/-- Propositional form of `recordLt`. -/
def recordLtP (a b : PrefixRecord) : Prop := recordLt a b = true

instance : DecidableRel recordLtP := fun a b => by
  unfold recordLtP; infer_instance

/-- The non-strict order Python sorting induces from `__lt__`. -/
def recordLe (a b : PrefixRecord) : Prop := recordLt b a = false

instance : DecidableRel recordLe := fun a b => by
  unfold recordLe; infer_instance

/-- Models `AWSIPPrefix.__lt__` when the other operand is a bare network
object (the comparison `bisect_left` performs). -/
def ltRecNet (r : PrefixRecord) (n : IPNetwork) : Bool :=
  if r.network ≠ n then netLt r.network n else false

/-- Models `sorted(...)` on strings (Python sorts code-point
lexicographically; `String` comparison in Lean is the same order). -/
def sortStrings (l : List String) : List String :=
  l.insertionSort strLe

/-- Models `list.sort()` on records, Python comparing with
`AWSIPPrefix.__lt__`. -/
def sortRecords (l : List PrefixRecord) : List PrefixRecord :=
  l.insertionSort recordLe

/-- Models `AWSIPPrefix.__init__`: a single-string `services` argument is
stored as a one-element tuple, a tuple argument is stored via
`tuple(sorted(services))`.  (String parsing of `prefix` happens upstream;
the network value is taken already parsed.) -/
def mkPrefixRecord (network : IPNetwork) (region network_border_group : String)
    (services : String ⊕ List String) : PrefixRecord :=
  { network := network
    region := region
    network_border_group := network_border_group
    services :=
      match services with
      | .inl s => [s]
      | .inr l => sortStrings l }

/-- Models `combine_prefixes` (`models/awsipprefix.py`): asserts more than
one record, requires every record to agree with the first on
(network, region, network border group) — mixed IP versions fail the same
way, Python raising `TypeError` from `check_type` before the `ValueError` —
and builds one record whose services are
`tuple(sorted(set(chain(services...))))` passed through the constructor. -/
def combinePrefixes (prefixes : List PrefixRecord) : Except String PrefixRecord :=
  match prefixes with
  | [] => .error "assert len(prefixes) > 1"
  | [_] => .error "assert len(prefixes) > 1"
  | first :: rest =>
    if rest.all fun p =>
        p.network = first.network ∧ p.region = first.region ∧
          p.network_border_group = first.network_border_group then
      .ok (mkPrefixRecord first.network first.region first.network_border_group
        (.inr (sortStrings (((first :: rest).flatMap (fun p => p.services)).dedup))))
    else
      .error "Cannot combine prefixes with different prefix, region, or network_border_group values."

/-- One step of building `collect_duplicates` (an insertion-ordered
`defaultdict(list)` keyed by the network): append the record to its key's
group, adding a new key at the end on first occurrence. -/
def addToGroups (groups : List (IPNetwork × List PrefixRecord)) (p : PrefixRecord) :
    List (IPNetwork × List PrefixRecord) :=
  match groups with
  | [] => [(p.network, [p])]
  | (k, g) :: rest =>
    if k = p.network then (k, g ++ [p]) :: rest else (k, g) :: addToGroups rest p

/-- Models the `collect_duplicates` dictionary of `_process_prefixes`:
groups in key-first-occurrence order, each group in input order. -/
def collectDuplicates (l : List PrefixRecord) : List (IPNetwork × List PrefixRecord) :=
  l.foldl addToGroups []

/-- Models the loop of `_process_prefixes` over `collect_duplicates.values()`:
a singleton group is kept as is, a larger group goes through
`combine_prefixes`. -/
def combineGroups : List (IPNetwork × List PrefixRecord) → Except String (List PrefixRecord)
  | [] => .ok []
  | kg :: rest => do
    let p ← match kg.2 with
      | [q] => Except.ok q
      | ps => combinePrefixes ps
    let others ← combineGroups rest
    .ok (p :: others)

/-- Models `AWSIPPrefixes._process_prefixes`: group by network key, combine
duplicate groups, sort the deduplicated records. -/
def processPrefixes (l : List PrefixRecord) : Except String (List PrefixRecord) :=
  (combineGroups (collectDuplicates l)).map sortRecords

/-- The collection `AWSIPPrefixes`: metadata plus the two per-version
sequences.  `create_date` is an opaque timestamp. -/
structure AWSIPPrefixes where
  sync_token : Option String
  create_date : Option Nat
  ipv4_prefixes : List PrefixRecord
  ipv6_prefixes : List PrefixRecord
  md5 : Option String
deriving DecidableEq, Repr

/-- Models `AWSIPPrefixes.__init__`: both record iterables pass through
`_process_prefixes`; the metadata is stored as given. -/
def mkAWSIPPrefixes (sync_token : Option String) (create_date : Option Nat)
    (ipv4 ipv6 : List PrefixRecord) (md5 : Option String) :
    Except String AWSIPPrefixes := do
  let v4 ← processPrefixes ipv4
  let v6 ← processPrefixes ipv6
  .ok ⟨sync_token, create_date, v4, v6, md5⟩

/-- Default record used by `List.getD` inside the binary search; every
access is within bounds, so it is never produced. -/
def dfltRec : PrefixRecord := ⟨⟨0, 0, 0⟩, "", "", []⟩

/-- The loop of CPython `bisect.bisect_left`:
`while lo < hi: mid = (lo+hi)//2; if a[mid] < x: lo = mid+1 else: hi = mid`.
The loop shrinks `hi - lo` on every iteration, so it is written with a
structural iteration budget that the caller sets to at least `hi - lo`
(`bisectLoop_spec` characterizes the result for every sufficient budget). -/
def bisectLoop (l : List PrefixRecord) (x : IPNetwork) : Nat → Nat → Nat → Nat
  | 0, lo, _ => lo
  | fuel + 1, lo, hi =>
    if lo < hi then
      if ltRecNet (l.getD ((lo + hi) / 2) dfltRec) x then
        bisectLoop l x fuel ((lo + hi) / 2 + 1) hi
      else
        bisectLoop l x fuel lo ((lo + hi) / 2)
    else lo

/-- Models `bisect_left(prefixes_collection, prefix)` followed by the
exact-equality check of `_get_prefix` on one version's list. -/
def getPrefixIn (l : List PrefixRecord) (n : IPNetwork) : Option PrefixRecord :=
  let index := bisectLoop l n l.length 0 l.length
  if h : index < l.length then
    if (l.get ⟨index, h⟩).network = n then some (l.get ⟨index, h⟩) else none
  else none

/-- Models `AWSIPPrefixes._get_prefix`: dispatch on the query's IP version
to the matching sequence, then exact binary-search lookup; `none` models
the not-found `None`. -/
def AWSIPPrefixes.getPrefix (c : AWSIPPrefixes) (n : IPNetwork) : Option PrefixRecord :=
  getPrefixIn (if n.version = 4 then c.ipv4_prefixes else c.ipv6_prefixes) n

/-- Models `utils.supernets(network)`: the supernets of the query at
prefix lengths `prefixlen, prefixlen - 1, ..., 1`. -/
def supernets (subnet : IPNetwork) : List IPNetwork :=
  (downRange subnet.prefixlen).map subnet.supernet

/-- Models `AWSIPPrefixes.__getitem__`: walk the supernets from most
specific down and return the first exact hit; `none` models the `KeyError`.
A query item (address, interface, network or record) arrives here as its
(non-strictly parsed) network value. -/
def AWSIPPrefixes.getItem (c : AWSIPPrefixes) (n : IPNetwork) : Option PrefixRecord :=
  (supernets n).findSome? c.getPrefix

/-- Models `AWSIPPrefixes.get_prefix_and_supernets`: collect every exact
hit along the supernet walk; sorted when any, else the caller's default
(`none` modelling the default `None`). -/
def AWSIPPrefixes.get_prefix_and_supernets (c : AWSIPPrefixes) (n : IPNetwork)
    (default : Option (List PrefixRecord)) : Option (List PrefixRecord) :=
  let found := (supernets n).filterMap c.getPrefix
  if found.isEmpty then default else some (sortRecords found)

/-- Models the lazily computed `AWSIPPrefixes.regions` frozenset (iteration
over IPv4 then IPv6 records). -/
def AWSIPPrefixes.regions (c : AWSIPPrefixes) : Finset String :=
  ((c.ipv4_prefixes ++ c.ipv6_prefixes).map (fun p => p.region)).toFinset

/-- Models the lazily computed `AWSIPPrefixes.network_border_groups`
frozenset. -/
def AWSIPPrefixes.network_border_groups (c : AWSIPPrefixes) : Finset String :=
  ((c.ipv4_prefixes ++ c.ipv6_prefixes).map (fun p => p.network_border_group)).toFinset

/-- Models the lazily computed `AWSIPPrefixes.services` frozenset. -/
def AWSIPPrefixes.services (c : AWSIPPrefixes) : Finset String :=
  ((c.ipv4_prefixes ++ c.ipv6_prefixes).flatMap (fun p => p.services)).toFinset

/-- Models `utils.normalize_to_set`: `None` becomes the empty set, a single
value a one-element set (pass `some [v]`), an iterable its set of values. -/
def normalizeToSet {α : Type} [DecidableEq α] (v : Option (List α)) : Finset α :=
  match v with
  | none => ∅
  | some l => l.toFinset

/-- Models the line `regions = normalize_to_set(regions) or self.regions`
of `filter` (an empty set is falsy, so the default applies). -/
def effRegions (c : AWSIPPrefixes) (regions : Option (List String)) : Finset String :=
  if normalizeToSet regions = ∅ then c.regions else normalizeToSet regions

/-- Models the `network_border_groups` normalization line of `filter`. -/
def effNetworkBorderGroups (c : AWSIPPrefixes) (groups : Option (List String)) : Finset String :=
  if normalizeToSet groups = ∅ then c.network_border_groups else normalizeToSet groups

/-- Models the `services` normalization line of `filter`. -/
def effServices (c : AWSIPPrefixes) (services : Option (List String)) : Finset String :=
  if normalizeToSet services = ∅ then c.services else normalizeToSet services

/-- Models the `versions` normalization line of `filter`
(`normalize_to_set(versions) or {4, 6}`). -/
def effVersions (versions : Option (List Nat)) : Finset Nat :=
  if normalizeToSet versions = ∅ then {4, 6} else normalizeToSet versions

/-- The record test of the `filter` generator expressions: region and
network border group members of the requested sets and a non-empty
intersection of the service sets. -/
def matchesFilter (rs gs ss : Finset String) (p : PrefixRecord) : Bool :=
  decide (p.region ∈ rs) && decide (p.network_border_group ∈ gs) &&
    p.services.any (fun s => decide (s ∈ ss))

/-- Models `AWSIPPrefixes.filter`: normalize each argument (defaulting to
the observed values, for versions to the frozenset `{4, 6}`), validate with
`validate_values` (`.error` models the `ValueError`), and rebuild a new
collection from the surviving records.  The Python call builds the new
collection without passing `md5`, so the result's hash is `None`. -/
def AWSIPPrefixes.filter (c : AWSIPPrefixes) (regions network_border_groups services :
    Option (List String)) (versions : Option (List Nat)) : Except String AWSIPPrefixes :=
  if effRegions c regions ⊆ c.regions then
    if effNetworkBorderGroups c network_border_groups ⊆ c.network_border_groups then
      if effServices c services ⊆ c.services then
        if effVersions versions ⊆ ({4, 6} : Finset Nat) then
          mkAWSIPPrefixes c.sync_token c.create_date
            (if 4 ∈ effVersions versions then
              c.ipv4_prefixes.filter
                (matchesFilter (effRegions c regions)
                  (effNetworkBorderGroups c network_border_groups) (effServices c services))
            else [])
            (if 6 ∈ effVersions versions then
              c.ipv6_prefixes.filter
                (matchesFilter (effRegions c regions)
                  (effNetworkBorderGroups c network_border_groups) (effServices c services))
            else [])
            none
        else .error "One or more of the provided versions do not exist in this set of AWS IP address ranges."
      else .error "One or more of the provided services do not exist in this set of AWS IP address ranges."
    else .error "One or more of the provided network_border_group values do not exist in this set of AWS IP address ranges."
  else .error "One or more of the provided region values do not exist in this set of AWS IP address ranges."

/-- Well-formedness of one stored per-version sequence: strictly sorted by
the record order and at most one record per network key.  `processPrefixes`
establishes it (proved below). -/
def WfList (l : List PrefixRecord) : Prop :=
  l.Pairwise recordLtP ∧ (l.map (fun p => p.network)).Nodup

instance : DecidablePred WfList := fun l => by
  unfold WfList; infer_instance

/-- Well-formedness of a collection: both stored sequences well formed. -/
def Wf (c : AWSIPPrefixes) : Prop :=
  WfList c.ipv4_prefixes ∧ WfList c.ipv6_prefixes

instance : DecidablePred Wf := fun c => by
  unfold Wf; infer_instance

deriving instance DecidableEq for Except

/-! ## Concrete sample data (used by witnesses and counterexamples) -/

/-- The record `AWSIPv4Prefix("0.0.0.0/0", ...)`. -/
def rGlobal0 : PrefixRecord := ⟨⟨4, 0, 0⟩, "GLOBAL", "GLOBAL", ["AMAZON"]⟩

/-- The collection holding only the `0.0.0.0/0` record. -/
def cGlobal0 : AWSIPPrefixes := ⟨none, none, [rGlobal0], [], none⟩

/-- The query network `10.0.0.0/8`. -/
def q8 : IPNetwork := ⟨4, 10 * 2 ^ 24, 8⟩

/-- The record `AWSIPv4Prefix("10.0.0.0/8", region="us-east-1", ...)`. -/
def r10slash8 : PrefixRecord := ⟨⟨4, 10 * 2 ^ 24, 8⟩, "us-east-1", "us-east-1", ["AMAZON"]⟩

/-- The record `AWSIPv4Prefix("10.0.0.0/16", ..., services=("EC2",))`. -/
def r10slash16 : PrefixRecord := ⟨⟨4, 10 * 2 ^ 24, 16⟩, "us-east-1", "us-east-1", ["EC2"]⟩

/-- The query address `10.0.1.5` as its `/32` network. -/
def q10 : IPNetwork := ⟨4, 10 * 2 ^ 24 + 2 ^ 8 + 5, 32⟩

/-- A collection with a broad block and a more specific carved-out block. -/
def cTwo : AWSIPPrefixes := ⟨some "1700000000", some 0, [r10slash8, r10slash16], [], some "hash"⟩

/-- A collection carrying a content hash. -/
def cMd5 : AWSIPPrefixes := ⟨some "100", some 5, [r10slash8], [], some "md5hash"⟩

/-- What filtering `cMd5` with no arguments produces. -/
def cFiltered : AWSIPPrefixes := ⟨some "100", some 5, [r10slash8], [], none⟩

/-- The empty collection. -/
def cEmpty : AWSIPPrefixes := ⟨none, none, [], [], none⟩

/-- The ancestors tuple of `q10` in `cTwo`. -/
def psC7 : List PrefixRecord := [r10slash8, r10slash16]

/-- A duplicate of the `10.0.0.0/8` network key tagged `EC2`. -/
def rDupEC2 : PrefixRecord := ⟨⟨4, 10 * 2 ^ 24, 8⟩, "us-east-1", "us-east-1", ["EC2"]⟩

/-- A duplicate of the `10.0.0.0/8` network key tagged `S3`. -/
def rDupS3 : PrefixRecord := ⟨⟨4, 10 * 2 ^ 24, 8⟩, "us-east-1", "us-east-1", ["S3"]⟩

/-- The collection built from `[r10slash16, rDupEC2, rDupS3]`: the duplicate
`/8` records are combined and the result sorted. -/
def cC3 : AWSIPPrefixes :=
  ⟨none, none,
    [⟨⟨4, 10 * 2 ^ 24, 8⟩, "us-east-1", "us-east-1", ["EC2", "S3"]⟩, r10slash16],
    [], none⟩

/-- The sort key of a record: the six compared components as a nested
lexicographic product (proof infrastructure for the order lemmas). -/
abbrev RecKey : Type := Nat ×ₗ Nat ×ₗ Nat ×ₗ String ×ₗ String ×ₗ List String

/-- The sort key of a record. -/
def keyOf (r : PrefixRecord) : RecKey :=
  toLex (r.network.version, toLex (r.network.addr, toLex (r.network.prefixlen,
    toLex (r.region, toLex (r.network_border_group, r.services)))))

/-! ## Order lemmas -/

theorem strLt_iff (a b : String) : strLt a b = true ↔ a < b := by
  rw [strLt, decide_eq_true_eq, String.lt_iff_toList_lt]
  rfl

theorem strLe_iff (a b : String) : strLe a b ↔ a ≤ b := by
  unfold strLe
  rw [← Bool.not_eq_true, strLt_iff, not_lt]

@[instance] theorem instIsTransStrLe : IsTrans String strLe :=
  ⟨fun a b c h1 h2 => (strLe_iff a c).mpr
    (le_trans ((strLe_iff a b).mp h1) ((strLe_iff b c).mp h2))⟩

@[instance] theorem instIsTotalStrLe : IsTotal String strLe :=
  ⟨fun a b => by
    rcases le_total a b with h | h
    · exact Or.inl ((strLe_iff a b).mpr h)
    · exact Or.inr ((strLe_iff b a).mpr h)⟩

theorem tupleLt_iff (xs ys : List String) : tupleLt xs ys = true ↔ xs < ys := by
  show tupleLt xs ys = true ↔ List.Lex (· < ·) xs ys
  induction xs generalizing ys with
  | nil =>
    cases ys with
    | nil => simp [tupleLt]
    | cons b bs => simpa [tupleLt] using List.Lex.nil
  | cons a as ih =>
    cases ys with
    | nil => simp [tupleLt]
    | cons b bs =>
      by_cases hab : a = b
      · subst hab
        simpa [tupleLt] using (ih bs).trans (List.Lex.cons_iff (r := (· < ·))).symm
      · simp only [tupleLt, if_neg hab, strLt_iff]
        constructor
        · exact fun h => List.Lex.rel h
        · intro h
          cases h with
          | cons h => exact absurd rfl hab
          | rel h => exact h

theorem recordLt_iff (a b : PrefixRecord) : recordLt a b = true ↔ keyOf a < keyOf b := by
  have hk : keyOf a < keyOf b ↔
      a.network.version < b.network.version ∨ a.network.version = b.network.version ∧
        (a.network.addr < b.network.addr ∨ a.network.addr = b.network.addr ∧
          (a.network.prefixlen < b.network.prefixlen ∨
            a.network.prefixlen = b.network.prefixlen ∧
              (a.region < b.region ∨ a.region = b.region ∧
                (a.network_border_group < b.network_border_group ∨
                  a.network_border_group = b.network_border_group ∧
                    a.services < b.services)))) := by
    simp [keyOf, Prod.Lex.lt_iff]
  rw [hk]
  unfold recordLt
  by_cases h1 : a.network.version = b.network.version
  · by_cases h2 : a.network.addr = b.network.addr
    · by_cases h3 : a.network.prefixlen = b.network.prefixlen
      · by_cases h4 : a.region = b.region
        · by_cases h5 : a.network_border_group = b.network_border_group
          · by_cases h6 : a.services = b.services
            · simp [h1, h2, h3, h4, h5, h6, lt_irrefl]
            · simp only [h1, h2, h3, h4, h5, h6, ne_eq, not_true_eq_false, if_false,
                not_false_eq_true, if_true, lt_irrefl, false_or, true_and]
              exact (tupleLt_iff _ _).trans (by simp [h1, h2, h3, h4, h5])
          · simp [h1, h2, h3, h4, h5, strLt_iff, lt_irrefl]
        · simp [h1, h2, h3, h4, strLt_iff, lt_irrefl]
      · simp [h1, h2, h3, lt_irrefl]
    · simp [h1, h2, lt_irrefl]
  · simp [h1]

theorem keyOf_inj {a b : PrefixRecord} (h : keyOf a = keyOf b) : a = b := by
  unfold keyOf at h
  simp only [toLex_inj, Prod.mk.injEq] at h
  obtain ⟨h1, h2, h3, h4, h5, h6⟩ := h
  obtain ⟨⟨v1, a1, p1⟩, r1, g1, s1⟩ := a
  obtain ⟨⟨v2, a2, p2⟩, r2, g2, s2⟩ := b
  simp_all

theorem recordLe_iff (a b : PrefixRecord) : recordLe a b ↔ keyOf a ≤ keyOf b := by
  unfold recordLe
  rw [← Bool.not_eq_true, recordLt_iff, not_lt]

theorem recordLt_asymm {a b : PrefixRecord} (h : recordLt a b = true) :
    recordLt b a = false := by
  rw [recordLt_iff] at h
  rw [← Bool.not_eq_true, recordLt_iff]
  exact not_lt_of_gt h

theorem recordLt_trans {a b c : PrefixRecord} (h1 : recordLt a b = true)
    (h2 : recordLt b c = true) : recordLt a c = true := by
  rw [recordLt_iff] at h1 h2 ⊢
  exact lt_trans h1 h2

theorem recordLt_connex {a b : PrefixRecord} (h1 : recordLt a b = false)
    (h2 : recordLt b a = false) : a = b := by
  rw [← Bool.not_eq_true, recordLt_iff] at h1 h2
  exact keyOf_inj (le_antisymm (le_of_not_lt h2) (le_of_not_lt h1))

theorem recordLt_tricho (a b : PrefixRecord) :
    recordLt a b = true ∨ a = b ∨ recordLt b a = true := by
  rcases lt_trichotomy (keyOf a) (keyOf b) with h | h | h
  · exact Or.inl ((recordLt_iff a b).mpr h)
  · exact Or.inr (Or.inl (keyOf_inj h))
  · exact Or.inr (Or.inr ((recordLt_iff b a).mpr h))

@[instance] theorem instIsTransRecordLe : IsTrans PrefixRecord recordLe :=
  ⟨fun a b c h1 h2 => (recordLe_iff a c).mpr
    (le_trans ((recordLe_iff a b).mp h1) ((recordLe_iff b c).mp h2))⟩

@[instance] theorem instIsTotalRecordLe : IsTotal PrefixRecord recordLe :=
  ⟨fun a b => by
    rcases le_total (keyOf a) (keyOf b) with h | h
    · exact Or.inl ((recordLe_iff a b).mpr h)
    · exact Or.inr ((recordLe_iff b a).mpr h)⟩

@[instance] theorem instIsAntisymmRecordLe : IsAntisymm PrefixRecord recordLe :=
  ⟨fun a b h1 h2 => keyOf_inj (le_antisymm ((recordLe_iff a b).mp h1)
    ((recordLe_iff b a).mp h2))⟩

theorem recordLe_of_lt {a b : PrefixRecord} (h : recordLt a b = true) : recordLe a b :=
  (recordLe_iff a b).mpr (le_of_lt ((recordLt_iff a b).mp h))

/-- A `recordLe`-sorted list with pairwise-distinct network keys is
strictly sorted. -/
theorem pairwise_lt_of_sorted_le {l : List PrefixRecord} (hs : l.Sorted recordLe)
    (hnd : (l.map (fun p => p.network)).Nodup) : l.Pairwise recordLtP := by
  have hne : l.Pairwise (fun a b => a.network ≠ b.network) :=
    List.pairwise_map.mp hnd
  refine (hs.and hne).imp ?_
  rintro a b ⟨hle, hne'⟩
  rcases recordLt_tricho a b with h | h | h
  · exact h
  · exact absurd (congrArg (fun p => p.network) h) hne'
  · exact absurd h (by simpa [recordLe] using hle)

/-! ## Network order lemmas and binary-search correctness -/

theorem netLt_iff {m n : IPNetwork} :
    netLt m n = true ↔
      m.addr < n.addr ∨ (m.addr = n.addr ∧ m.prefixlen < n.prefixlen) := by
  unfold netLt
  by_cases h : m.addr = n.addr <;> simp [h]

theorem netLt_asymm {m n : IPNetwork} (h : netLt m n = true) : netLt n m = false := by
  rw [← Bool.not_eq_true, netLt_iff]
  rw [netLt_iff] at h
  omega

theorem netLt_trans {m n k : IPNetwork} (h1 : netLt m n = true)
    (h2 : netLt n k = true) : netLt m k = true := by
  rw [netLt_iff] at h1 h2 ⊢
  omega

theorem netLt_total_of_ne {m n : IPNetwork} (hv : m.version = n.version)
    (hne : m ≠ n) : netLt m n = true ∨ netLt n m = true := by
  rw [netLt_iff, netLt_iff]
  have hcomp : ¬ (m.addr = n.addr ∧ m.prefixlen = n.prefixlen) := by
    rintro ⟨h1, h2⟩
    exact hne (IPNetwork.ext hv h1 h2)
  omega

/-- With equal versions and different networks, the record order between two
records is decided by the network order (the first differing component is
the address or the prefix length). -/
theorem recordLt_iff_netLt {a b : PrefixRecord}
    (hv : a.network.version = b.network.version) (hne : a.network ≠ b.network) :
    recordLt a b = netLt a.network b.network := by
  unfold recordLt netLt
  by_cases ha : a.network.addr = b.network.addr
  · by_cases hp : a.network.prefixlen = b.network.prefixlen
    · exact absurd (IPNetwork.ext hv ha hp) hne
    · simp [hv, ha, hp]
  · simp [hv, ha]

theorem ltRecNet_of_eq {r : PrefixRecord} {n : IPNetwork} (h : r.network = n) :
    ltRecNet r n = false := by
  simp [ltRecNet, h]

theorem ltRecNet_eq_true_iff {r : PrefixRecord} {n : IPNetwork} :
    ltRecNet r n = true ↔ r.network ≠ n ∧ netLt r.network n = true := by
  unfold ltRecNet
  split_ifs with h <;> simp_all

/-- The `bisect_left` comparison predicate is monotone along a sorted,
version-homogeneous list: a hit below the query at a later index forces one
at every earlier index. -/
theorem ltRecNet_mono {l : List PrefixRecord} {x : IPNetwork}
    (hpw : l.Pairwise recordLtP) (hv : ∀ p ∈ l, p.network.version = x.version) :
    ∀ i j, i ≤ j → j < l.length → ltRecNet (l.getD j dfltRec) x = true →
      ltRecNet (l.getD i dfltRec) x = true := by
  intro i j hij hj hP
  rcases Nat.eq_or_lt_of_le hij with rfl | hlt
  · exact hP
  · have hi : i < l.length := lt_trans hlt hj
    rw [List.getD_eq_get l dfltRec hj] at hP
    rw [List.getD_eq_get l dfltRec hi]
    have hrec : recordLtP (l.get ⟨i, hi⟩) (l.get ⟨j, hj⟩) :=
      List.pairwise_iff_get.mp hpw ⟨i, hi⟩ ⟨j, hj⟩ hlt
    set a := l.get ⟨i, hi⟩ with ha
    set b := l.get ⟨j, hj⟩ with hb
    obtain ⟨hbne, hblt⟩ := ltRecNet_eq_true_iff.mp hP
    have hva : a.network.version = x.version := hv a (List.get_mem l _ _)
    have hvb : b.network.version = x.version := hv b (List.get_mem l _ _)
    rw [ltRecNet_eq_true_iff]
    by_cases hab : a.network = b.network
    · exact ⟨hab ▸ hbne, hab ▸ hblt⟩
    · have hnets : netLt a.network b.network = true := by
        rw [← recordLt_iff_netLt (hva.trans hvb.symm) hab]; exact hrec
      have hax : netLt a.network x = true := netLt_trans hnets hblt
      refine ⟨?_, hax⟩
      intro hxa
      rw [hxa] at hnets
      exact absurd hblt (by simp [netLt_asymm hnets])

/-- Invariant of the CPython `bisect_left` loop: it returns the threshold
index below which every record compares less than the query. -/
theorem bisectLoop_spec {l : List PrefixRecord} {x : IPNetwork}
    (mono : ∀ i j, i ≤ j → j < l.length → ltRecNet (l.getD j dfltRec) x = true →
      ltRecNet (l.getD i dfltRec) x = true) :
    ∀ fuel lo hi, hi - lo ≤ fuel → lo ≤ hi → hi ≤ l.length →
    (∀ i, i < lo → ltRecNet (l.getD i dfltRec) x = true) →
    (∀ i, hi ≤ i → i < l.length → ltRecNet (l.getD i dfltRec) x = false) →
    lo ≤ bisectLoop l x fuel lo hi ∧ bisectLoop l x fuel lo hi ≤ hi ∧
    (∀ i, i < bisectLoop l x fuel lo hi → ltRecNet (l.getD i dfltRec) x = true) ∧
    (∀ i, bisectLoop l x fuel lo hi ≤ i → i < l.length →
      ltRecNet (l.getD i dfltRec) x = false) := by
  intro fuel
  induction fuel with
  | zero =>
    intro lo hi hfuel hlohi hhi hbelow habove
    simp only [bisectLoop]
    exact ⟨le_refl _, hlohi, hbelow, fun i hli hil => habove i (by omega) hil⟩
  | succ n ih =>
    intro lo hi hfuel hlohi hhi hbelow habove
    by_cases hlt : lo < hi
    · by_cases hP : ltRecNet (l.getD ((lo + hi) / 2) dfltRec) x = true
      · have hstep : bisectLoop l x (n + 1) lo hi =
            bisectLoop l x n ((lo + hi) / 2 + 1) hi := by
          simp only [bisectLoop, if_pos hlt, if_pos hP]
        rw [hstep]
        have hrec := ih ((lo + hi) / 2 + 1) hi (by omega) (by omega) hhi
          (fun i hi' => mono i ((lo + hi) / 2) (by omega) (by omega) hP) habove
        exact ⟨by omega, hrec.2.1, hrec.2.2.1, hrec.2.2.2⟩
      · have hstep : bisectLoop l x (n + 1) lo hi =
            bisectLoop l x n lo ((lo + hi) / 2) := by
          simp only [bisectLoop, if_pos hlt, if_neg hP]
        rw [hstep]
        have habove' : ∀ i, (lo + hi) / 2 ≤ i → i < l.length →
            ltRecNet (l.getD i dfltRec) x = false := by
          intro i hmi hil
          cases h : ltRecNet (l.getD i dfltRec) x with
          | false => rfl
          | true => exact absurd (mono ((lo + hi) / 2) i hmi hil h) hP
        have hrec := ih lo ((lo + hi) / 2) (by omega) (by omega) (by omega)
          hbelow habove'
        exact ⟨hrec.1, by omega, hrec.2.2.1, hrec.2.2.2⟩
    · have hstep : bisectLoop l x (n + 1) lo hi = lo := by
        simp only [bisectLoop, if_neg hlt]
      rw [hstep]
      exact ⟨le_refl _, hlohi, hbelow, fun i hli hil => habove i (by omega) hil⟩

/-- Soundness of the exact lookup, unconditionally: a hit is a stored
record whose network equals the query. -/
theorem getPrefixIn_some {l : List PrefixRecord} {n : IPNetwork} {r : PrefixRecord}
    (h : getPrefixIn l n = some r) : r ∈ l ∧ r.network = n := by
  simp only [getPrefixIn] at h
  split at h
  · split at h
    · obtain rfl : _ = r := Option.some.inj h
      exact ⟨List.get_mem l _ _, by assumption⟩
    · exact absurd h (by simp)
  · exact absurd h (by simp)

/-- Completeness of the exact lookup on a well-formed list: the stored
record with the queried network key is found. -/
theorem getPrefixIn_eq_some_of_mem {l : List PrefixRecord} {n : IPNetwork}
    {r : PrefixRecord} (hpw : l.Pairwise recordLtP)
    (hnd : (l.map (fun p => p.network)).Nodup)
    (hv : ∀ p ∈ l, p.network.version = n.version)
    (hr : r ∈ l) (hrn : r.network = n) : getPrefixIn l n = some r := by
  have mono := ltRecNet_mono hpw hv
  obtain ⟨hj0, hjlen, hjlt, hjge⟩ := bisectLoop_spec mono l.length 0 l.length
    (by omega) (by omega) (le_refl _) (fun i hi => absurd hi (by omega))
    (fun i hi hil => absurd hil (by omega))
  set j := bisectLoop l n l.length 0 l.length with hjdef
  obtain ⟨⟨k, hk⟩, hget⟩ := List.mem_iff_get.mp hr
  have hPk : ltRecNet (l.getD k dfltRec) n = false := by
    rw [List.getD_eq_get l dfltRec hk, hget]
    exact ltRecNet_of_eq hrn
  have hjk : j ≤ k := by
    by_contra hc
    rw [hjlt k (by omega)] at hPk
    exact Bool.noConfusion hPk
  have hjlen' : j < l.length := by omega
  have hjn : (l.get ⟨j, hjlen'⟩).network = n := by
    by_contra hne
    have hjk' : j < k := by
      rcases Nat.eq_or_lt_of_le hjk with rfl | h
      · exact absurd (hget ▸ hrn) hne
      · exact h
    have hrec : recordLtP (l.get ⟨j, hjlen'⟩) (l.get ⟨k, hk⟩) :=
      List.pairwise_iff_get.mp hpw _ _ hjk'
    have hva : (l.get ⟨j, hjlen'⟩).network.version = n.version :=
      hv _ (List.get_mem l _ _)
    have hvb : (l.get ⟨k, hk⟩).network.version = n.version := hv _ (List.get_mem l _ _)
    have hkn : (l.get ⟨k, hk⟩).network = n := hget ▸ hrn
    have hnets : netLt (l.get ⟨j, hjlen'⟩).network n = true := by
      have := recordLt_iff_netLt (hva.trans hvb.symm) (by rw [hkn]; exact hne)
      rw [hkn] at this
      rw [← this]
      exact hrec
    have : ltRecNet (l.getD j dfltRec) n = true := by
      rw [List.getD_eq_get l dfltRec hjlen', ltRecNet_eq_true_iff]
      exact ⟨hne, hnets⟩
    rw [hjge j (le_refl _) hjlen'] at this
    exact Bool.noConfusion this
  have hkj : j = k := by
    have h1 : (l.map (fun p => p.network)).get ⟨j, by simpa using hjlen'⟩ =
        (l.map (fun p => p.network)).get ⟨k, by simpa using hk⟩ := by
      simp only [List.get_map]
      rw [hjn, hget, hrn]
    have := (List.Nodup.get_inj_iff hnd).mp h1
    simpa using this
  simp only [getPrefixIn]
  rw [← hjdef, dif_pos hjlen', if_pos hjn]
  have hfin : l.get ⟨j, hjlen'⟩ = r := by
    rw [show (⟨j, hjlen'⟩ : Fin l.length) = ⟨k, hk⟩ from Fin.ext hkj]
    exact hget
  rw [hfin]

/-- Exact-lookup characterization on a well-formed list. -/
theorem getPrefixIn_eq_some_iff {l : List PrefixRecord} {n : IPNetwork}
    {r : PrefixRecord} (hpw : l.Pairwise recordLtP)
    (hnd : (l.map (fun p => p.network)).Nodup)
    (hv : ∀ p ∈ l, p.network.version = n.version) :
    getPrefixIn l n = some r ↔ r ∈ l ∧ r.network = n :=
  ⟨getPrefixIn_some, fun ⟨hr, hrn⟩ => getPrefixIn_eq_some_of_mem hpw hnd hv hr hrn⟩

/-! ## Masking, supernets and the walk order -/

/-- Masking to fewer leading bits can only lower the address. -/
theorem maskAddr_mono (v a : Nat) {L1 L2 : Nat} (h : L2 ≤ L1) :
    maskAddr v a L2 ≤ maskAddr v a L1 := by
  unfold maskAddr
  have he : addrWidth v - L1 ≤ addrWidth v - L2 := by omega
  have hdvd : (2 : Nat) ^ (addrWidth v - L1) ∣ a / 2 ^ (addrWidth v - L2) *
      2 ^ (addrWidth v - L2) :=
    (pow_dvd_pow 2 he).trans (dvd_mul_left _ _)
  calc a / 2 ^ (addrWidth v - L2) * 2 ^ (addrWidth v - L2)
      = a / 2 ^ (addrWidth v - L2) * 2 ^ (addrWidth v - L2) /
          2 ^ (addrWidth v - L1) * 2 ^ (addrWidth v - L1) :=
        (Nat.div_mul_cancel hdvd).symm
    _ ≤ a / 2 ^ (addrWidth v - L1) * 2 ^ (addrWidth v - L1) :=
        Nat.mul_le_mul_right _
          (Nat.div_le_div_right (Nat.div_mul_le_self a _))

/-- Masking is idempotent at a fixed length. -/
theorem maskAddr_idem (v a L : Nat) : maskAddr v (maskAddr v a L) L = maskAddr v a L := by
  unfold maskAddr
  rw [Nat.mul_div_cancel _ (pow_pos two_pos _)]

theorem supernet_supernet (n : IPNetwork) (L : Nat) :
    (n.supernet L).supernet L = n.supernet L := by
  unfold IPNetwork.supernet
  simp [maskAddr_idem]

theorem mem_downRange {p L : Nat} : L ∈ downRange p ↔ 1 ≤ L ∧ L ≤ p := by
  induction p with
  | zero => simp [downRange]; omega
  | succ q ih => simp [downRange, ih]; omega

theorem downRange_succ_head (p : Nat) : downRange (p + 1) = (p + 1) :: downRange p := rfl

/-- The walk probes strictly decreasing prefix lengths. -/
theorem downRange_pairwise_gt (p : Nat) : (downRange p).Pairwise (fun a b => b < a) := by
  induction p with
  | zero => simp [downRange]
  | succ q ih =>
    rw [downRange_succ_head]
    exact List.Pairwise.cons (fun b hb => by have := mem_downRange.mp hb; omega) ih

theorem head?_filterMap {α β : Type} (f : α → Option β) (l : List α) :
    (l.filterMap f).head? = l.findSome? f := by
  induction l with
  | nil => rfl
  | cons a l ih => cases h : f a <;> simp [List.filterMap_cons, List.findSome?_cons, h, ih]

/-- First-hit characterization of `findSome?` over the descending range
`[p, ..., 1]`. -/
theorem findSome?_downRange {β : Type} (f : Nat → Option β) (p : Nat) :
    ((downRange p).findSome? f = none ↔ ∀ L, 1 ≤ L → L ≤ p → f L = none) ∧
    (∀ r, (downRange p).findSome? f = some r ↔
      ∃ L, 1 ≤ L ∧ L ≤ p ∧ f L = some r ∧ ∀ M, L < M → M ≤ p → f M = none) := by
  induction p with
  | zero =>
    refine ⟨by simp [downRange]; omega, fun r => ?_⟩
    simp only [downRange, List.findSome?_nil]
    constructor
    · intro h; exact absurd h (by simp)
    · rintro ⟨L, h1, h2, _⟩; omega
  | succ q ih =>
    rw [downRange_succ_head]
    cases h : f (q + 1) with
    | some b =>
      rw [List.findSome?_cons_of_isSome _ (by simp [h])]
      constructor
      · simp only [h]
        constructor
        · intro hc; exact absurd hc (by simp)
        · intro hall; exact absurd (hall (q + 1) (by omega) (le_refl _)) (by simp [h])
      · intro r
        rw [h]
        constructor
        · intro hbr
          exact ⟨q + 1, by omega, le_refl _, by rw [h, hbr],
            fun M h1 h2 => by omega⟩
        · rintro ⟨L, h1, h2, h3, h4⟩
          rcases Nat.eq_or_lt_of_le h2 with rfl | hlt
          · rw [h] at h3; exact h3
          · exact absurd (h4 (q + 1) (by omega) (le_refl _)) (by simp [h])
    | none =>
      rw [List.findSome?_cons_of_isNone _ (by simp [h])]
      constructor
      · rw [ih.1]
        constructor
        · intro hall L h1 h2
          rcases Nat.eq_or_lt_of_le h2 with rfl | hlt
          · exact h
          · exact hall L h1 (by omega)
        · intro hall L h1 h2
          exact hall L h1 (by omega)
      · intro r
        rw [ih.2 r]
        constructor
        · rintro ⟨L, h1, h2, h3, h4⟩
          refine ⟨L, h1, by omega, h3, fun M hM1 hM2 => ?_⟩
          rcases Nat.eq_or_lt_of_le hM2 with rfl | hlt
          · exact h
          · exact h4 M hM1 (by omega)
        · rintro ⟨L, h1, h2, h3, h4⟩
          have hLq : L ≤ q := by
            rcases Nat.eq_or_lt_of_le h2 with rfl | hlt
            · rw [h] at h3; exact absurd h3 (by simp)
            · omega
          exact ⟨L, h1, hLq, h3, fun M hM1 hM2 => h4 M hM1 (by omega)⟩

/-! ## Sorting lemmas -/

theorem sortRecords_sorted (l : List PrefixRecord) :
    (sortRecords l).Sorted recordLe :=
  List.sorted_insertionSort recordLe l

theorem sortRecords_perm (l : List PrefixRecord) : (sortRecords l).Perm l :=
  List.perm_insertionSort recordLe l

/-- Sorting a strictly sorted list is the identity. -/
theorem sortRecords_eq_self {l : List PrefixRecord} (h : l.Pairwise recordLtP) :
    sortRecords l = l :=
  List.Sorted.insertionSort_eq (h.imp recordLe_of_lt)

/-- Sorting a strictly descending list reverses it. -/
theorem sortRecords_eq_reverse {l : List PrefixRecord}
    (h : l.Pairwise fun a b => recordLt b a = true) :
    sortRecords l = l.reverse := by
  refine List.eq_of_perm_of_sorted (r := recordLe)
    ((sortRecords_perm l).trans (List.reverse_perm l).symm)
    (sortRecords_sorted l) ?_
  rw [List.Sorted, List.pairwise_reverse]
  exact h.imp fun hlt => by
    show recordLt _ _ = false
    exact recordLt_asymm hlt

theorem sortStrings_perm (l : List String) : (sortStrings l).Perm l :=
  List.perm_insertionSort _ l

theorem sortStrings_sorted (l : List String) :
    (sortStrings l).Sorted (fun a b => a ≤ b) :=
  (List.sorted_insertionSort strLe l).imp (fun h => (strLe_iff _ _).mp h)

theorem mem_sortStrings {l : List String} {s : String} :
    s ∈ sortStrings l ↔ s ∈ l :=
  (sortStrings_perm l).mem_iff

/-- Sorting a duplicate-free list of strings gives a strictly ascending
list. -/
theorem sortStrings_pairwise_lt {l : List String} (h : l.Nodup) :
    (sortStrings l).Pairwise (fun a b => a < b) := by
  have hnd : (sortStrings l).Nodup := ((sortStrings_perm l).nodup_iff).mpr h
  exact ((sortStrings_sorted l).and hnd).imp
    (fun hx => lt_of_le_of_ne hx.1 hx.2)

/-! ## Grouping and construction lemmas -/

theorem addToGroups_keys (gs : List (IPNetwork × List PrefixRecord)) (p : PrefixRecord) :
    (addToGroups gs p).map Prod.fst =
      if p.network ∈ gs.map Prod.fst then gs.map Prod.fst
      else gs.map Prod.fst ++ [p.network] := by
  induction gs with
  | nil => simp [addToGroups]
  | cons kg rest ih =>
    obtain ⟨k, g⟩ := kg
    by_cases hk : k = p.network
    · simp [addToGroups, hk]
    · by_cases hm : p.network ∈ rest.map Prod.fst <;>
        simp [addToGroups, hk, ih, hm, Ne.symm hk]

theorem addToGroups_content {P : PrefixRecord → Prop}
    {gs : List (IPNetwork × List PrefixRecord)} {p : PrefixRecord}
    (hc : ∀ kg ∈ gs, kg.2 ≠ [] ∧ ∀ q ∈ kg.2, q.network = kg.1 ∧ P q) (hp : P p) :
    ∀ kg ∈ addToGroups gs p, kg.2 ≠ [] ∧ ∀ q ∈ kg.2, q.network = kg.1 ∧ P q := by
  induction gs with
  | nil =>
    intro kg hkg
    simp only [addToGroups, List.mem_singleton] at hkg
    subst hkg
    simp [hp]
  | cons kg0 rest ih =>
    obtain ⟨k, g⟩ := kg0
    intro kg hkg
    by_cases hk : k = p.network
    · simp only [addToGroups, if_pos hk, List.mem_cons] at hkg
      rcases hkg with rfl | hkg
      · refine ⟨by simp, fun q hq => ?_⟩
        rcases List.mem_append.mp hq with hq | hq
        · exact (hc (k, g) (by simp)).2 q hq
        · obtain rfl : q = p := by simpa using hq
          exact ⟨hk.symm, hp⟩
      · exact hc kg (List.mem_cons_of_mem _ hkg)
    · simp only [addToGroups, if_neg hk, List.mem_cons] at hkg
      rcases hkg with rfl | hkg
      · exact hc _ (by simp)
      · exact ih (fun kg' hkg' => hc kg' (List.mem_cons_of_mem _ hkg')) kg hkg

theorem foldl_addToGroups_inv (P : PrefixRecord → Prop) :
    ∀ (rest : List PrefixRecord) (acc : List (IPNetwork × List PrefixRecord)),
    (acc.map Prod.fst).Nodup →
    (∀ kg ∈ acc, kg.2 ≠ [] ∧ ∀ q ∈ kg.2, q.network = kg.1 ∧ P q) →
    (∀ q ∈ rest, P q) →
    ((rest.foldl addToGroups acc).map Prod.fst).Nodup ∧
    (∀ kg ∈ rest.foldl addToGroups acc, kg.2 ≠ [] ∧ ∀ q ∈ kg.2, q.network = kg.1 ∧ P q) := by
  intro rest
  induction rest with
  | nil => intro acc h1 h2 _; exact ⟨h1, h2⟩
  | cons p rest ih =>
    intro acc h1 h2 h3
    rw [List.foldl_cons]
    refine ih (addToGroups acc p) ?_ (addToGroups_content h2 (h3 p (by simp)))
      (fun q hq => h3 q (by simp [hq]))
    rw [addToGroups_keys]
    split
    · exact h1
    · simp only [List.nodup_append, List.nodup_singleton]
      exact ⟨h1, by simpa using (by assumption : p.network ∉ acc.map Prod.fst)⟩

/-- The `collect_duplicates` dictionary has pairwise-distinct keys, and
every group is nonempty and holds exactly input records with that key. -/
theorem collectDuplicates_inv (l : List PrefixRecord) :
    ((collectDuplicates l).map Prod.fst).Nodup ∧
    (∀ kg ∈ collectDuplicates l, kg.2 ≠ [] ∧
      ∀ q ∈ kg.2, q.network = kg.1 ∧ q ∈ l) := by
  unfold collectDuplicates
  exact foldl_addToGroups_inv (fun q => q ∈ l) l [] (by simp) (by simp) (fun q h => h)

/-- Definitional unfolding of `combinePrefixes` on a two-or-more list. -/
theorem combinePrefixes_cons_cons (first b : PrefixRecord) (rest : List PrefixRecord) :
    combinePrefixes (first :: b :: rest) =
      if (b :: rest).all (fun p =>
          p.network = first.network ∧ p.region = first.region ∧
            p.network_border_group = first.network_border_group) then
        .ok (mkPrefixRecord first.network first.region first.network_border_group
          (.inr (sortStrings
            (((first :: b :: rest).flatMap (fun p => p.services)).dedup))))
      else
        .error "Cannot combine prefixes with different prefix, region, or network_border_group values." :=
  rfl

/-- A successful `combine_prefixes` call means the input had at least two
records, all agreeing with the first on the three identity fields, and
produced exactly the sorted-deduplicated-union record. -/
theorem combinePrefixes_ok_fields {ps : List PrefixRecord} {r : PrefixRecord}
    (h : combinePrefixes ps = .ok r) :
    ∃ first rest, ps = first :: rest ∧ rest ≠ [] ∧
      (∀ p ∈ rest, p.network = first.network ∧ p.region = first.region ∧
        p.network_border_group = first.network_border_group) ∧
      r = mkPrefixRecord first.network first.region first.network_border_group
        (.inr (sortStrings ((ps.flatMap fun p => p.services).dedup))) := by
  match ps with
  | [] =>
    rw [show combinePrefixes [] = .error "assert len(prefixes) > 1" from rfl] at h
    exact absurd h (by simp)
  | [x] =>
    rw [show combinePrefixes [x] = .error "assert len(prefixes) > 1" from rfl] at h
    exact absurd h (by simp)
  | first :: b :: rest =>
    rw [combinePrefixes_cons_cons] at h
    split_ifs at h with hall
    · refine ⟨first, b :: rest, rfl, List.cons_ne_nil b rest, ?_, (Except.ok.inj h).symm⟩
      intro p hp
      have := List.all_eq_true.mp hall p hp
      simpa using this

theorem combinePrefixes_error_of_mismatch {first : PrefixRecord}
    {rest : List PrefixRecord}
    (h : ¬ ∀ p ∈ rest, p.network = first.network ∧ p.region = first.region ∧
      p.network_border_group = first.network_border_group) :
    ∃ e, combinePrefixes (first :: rest) = .error e := by
  match rest with
  | [] => exact absurd (fun p hp => absurd hp (List.not_mem_nil p)) h
  | b :: rest =>
    rw [combinePrefixes_cons_cons]
    split_ifs with hall
    · refine absurd ?_ h
      intro p hp
      simpa using List.all_eq_true.mp hall p hp
    · exact ⟨_, rfl⟩

theorem combineGroups_keys : ∀ {gs : List (IPNetwork × List PrefixRecord)}
    {out : List PrefixRecord}, combineGroups gs = .ok out →
    (∀ kg ∈ gs, kg.2 ≠ [] ∧ ∀ q ∈ kg.2, q.network = kg.1) →
    out.map (fun p => p.network) = gs.map Prod.fst := by
  intro gs
  induction gs with
  | nil =>
    intro out h _
    obtain rfl : ([] : List PrefixRecord) = out := by
      simpa [combineGroups] using h
    simp
  | cons kg rest ih =>
    intro out h hinv
    obtain ⟨k, grp⟩ := kg
    rcases grp with _ | ⟨q1, grp'⟩
    · exact absurd rfl (hinv (k, []) (by simp)).1
    rcases grp' with _ | ⟨q2, qs⟩
    · simp only [combineGroups] at h
      cases hrest : combineGroups rest with
      | error e =>
        rw [hrest] at h
        exact absurd h (by simp [Bind.bind, Except.bind])
      | ok others =>
        rw [hrest] at h
        obtain rfl : q1 :: others = out := by
          simpa [Bind.bind, Except.bind] using h
        have htail := ih hrest (fun kg' h' => hinv kg' (by simp [h']))
        have hq1 : q1.network = k := (hinv (k, [q1]) (by simp)).2 q1 (by simp)
        simp [hq1, htail]
    · simp only [combineGroups] at h
      cases hcomb : combinePrefixes (q1 :: q2 :: qs) with
      | error e =>
        rw [hcomb] at h
        exact absurd h (by simp [Bind.bind, Except.bind])
      | ok p =>
        rw [hcomb] at h
        cases hrest : combineGroups rest with
        | error e =>
          rw [hrest] at h
          exact absurd h (by simp [Bind.bind, Except.bind])
        | ok others =>
          rw [hrest] at h
          obtain rfl : p :: others = out := by
            simpa [Bind.bind, Except.bind] using h
          have htail := ih hrest (fun kg' h' => hinv kg' (by simp [h']))
          obtain ⟨f, r2, heq, _, _, hr⟩ := combinePrefixes_ok_fields hcomb
          have hf : f ∈ (q1 :: q2 :: qs) := by rw [heq]; simp
          have hfk : f.network = k := (hinv (k, q1 :: q2 :: qs) (by simp)).2 f hf
          have hp : p.network = k := by rw [hr]; exact hfk
          simp [hp, htail]

/-- `_process_prefixes` output is well formed: strictly sorted with
pairwise-distinct network keys. -/
theorem processPrefixes_wf {l out : List PrefixRecord}
    (h : processPrefixes l = .ok out) : WfList out := by
  unfold processPrefixes at h
  cases hm : combineGroups (collectDuplicates l) with
  | error e => rw [hm] at h; exact absurd h (by simp [Except.map])
  | ok mid =>
    rw [hm] at h
    obtain rfl : sortRecords mid = out := by simpa [Except.map] using h
    obtain ⟨hnd, hcont⟩ := collectDuplicates_inv l
    have hkeys : mid.map (fun p => p.network) = (collectDuplicates l).map Prod.fst :=
      combineGroups_keys hm
        (fun kg hkg => ⟨(hcont kg hkg).1, fun q hq => ((hcont kg hkg).2 q hq).1⟩)
    have hmidnd : (mid.map fun p => p.network).Nodup := by rw [hkeys]; exact hnd
    have hnd2 : ((sortRecords mid).map fun p => p.network).Nodup :=
      (((sortRecords_perm mid).map _).nodup_iff).mpr hmidnd
    exact ⟨pairwise_lt_of_sorted_le (sortRecords_sorted mid) hnd2, hnd2⟩

theorem addToGroups_of_not_mem {acc : List (IPNetwork × List PrefixRecord)}
    {p : PrefixRecord} (h : p.network ∉ acc.map Prod.fst) :
    addToGroups acc p = acc ++ [(p.network, [p])] := by
  induction acc with
  | nil => rfl
  | cons kg rest ih =>
    obtain ⟨k, g⟩ := kg
    simp only [List.map_cons, List.mem_cons] at h
    push_neg at h
    simp [addToGroups, Ne.symm h.1, ih h.2]

theorem foldl_addToGroups_singletons :
    ∀ (rest : List PrefixRecord) (acc : List (IPNetwork × List PrefixRecord)),
    (acc.map Prod.fst ++ rest.map fun p => p.network).Nodup →
    rest.foldl addToGroups acc = acc ++ rest.map (fun p => (p.network, [p])) := by
  intro rest
  induction rest with
  | nil => intro acc _; simp
  | cons p rest ih =>
    intro acc hnd
    have hp : p.network ∉ acc.map Prod.fst := by
      simp only [List.map_cons, List.nodup_append] at hnd
      intro hmem
      exact hnd.2.2 hmem (by simp)
    rw [List.foldl_cons, addToGroups_of_not_mem hp,
      ih (acc ++ [(p.network, [p])]) (by simpa using hnd)]
    simp

theorem combineGroups_singletons (l : List PrefixRecord) :
    combineGroups (l.map fun p => (p.network, [p])) = .ok l := by
  induction l with
  | nil => rfl
  | cons p rest ih =>
    simp only [List.map_cons, combineGroups, ih]
    rfl

/-- Reprocessing an already well-formed list is the identity: every group
is a singleton, so nothing is combined, and sorting a sorted list keeps
it. -/
theorem processPrefixes_id {l : List PrefixRecord} (hpw : l.Pairwise recordLtP)
    (hnd : (l.map fun p => p.network).Nodup) : processPrefixes l = .ok l := by
  unfold processPrefixes collectDuplicates
  rw [foldl_addToGroups_singletons l [] (by simpa using hnd),
    List.nil_append, combineGroups_singletons]
  simp [Except.map, sortRecords_eq_self hpw]

/-! ## Lookup-walk lemmas -/

/-- A hit of the exact lookup has exactly the queried network. -/
theorem getPrefix_network {c : AWSIPPrefixes} {n : IPNetwork} {r : PrefixRecord}
    (h : c.getPrefix n = some r) : r.network = n :=
  (getPrefixIn_some h).2

theorem getItem_eq_findSome (c : AWSIPPrefixes) (n : IPNetwork) :
    c.getItem n = (downRange n.prefixlen).findSome?
      (fun L => c.getPrefix (n.supernet L)) := by
  unfold AWSIPPrefixes.getItem supernets
  rw [List.findSome?_map]
  rfl

/-- Two hits of the supernet walk compare by their probed lengths: the hit
at the shorter length is the smaller record. -/
theorem recordLt_of_supernets {a b : PrefixRecord} {n : IPNetwork} {L M : Nat}
    (hna : a.network = n.supernet L) (hnb : b.network = n.supernet M) (h : M < L) :
    recordLt b a = true := by
  unfold recordLt
  have hv : b.network.version = a.network.version := by
    rw [hna, hnb]; rfl
  have haddr : b.network.addr ≤ a.network.addr := by
    rw [hna, hnb]; exact maskAddr_mono _ _ (le_of_lt h)
  have hplen : b.network.prefixlen < a.network.prefixlen := by
    rw [hna, hnb]; exact h
  by_cases ha : b.network.addr = a.network.addr
  · simp [hv, ha, hplen, Nat.ne_of_lt hplen]
  · have hlt : b.network.addr < a.network.addr := lt_of_le_of_ne haddr ha
    simp [hv, ha, hlt]

/-- The records collected along the supernet walk are strictly descending:
most specific first, with strictly decreasing prefix lengths. -/
theorem hits_pairwise (c : AWSIPPrefixes) (n : IPNetwork) :
    ((supernets n).filterMap c.getPrefix).Pairwise
      (fun a b => recordLt b a = true ∧ b.network.prefixlen < a.network.prefixlen) := by
  unfold supernets
  rw [List.filterMap_map]
  apply List.pairwise_filterMap.mpr
  refine (downRange_pairwise_gt n.prefixlen).imp ?_
  intro L M hML a ha b hb
  have hna : a.network = n.supernet L := getPrefix_network ha
  have hnb : b.network = n.supernet M := getPrefix_network hb
  refine ⟨recordLt_of_supernets hna hnb hML, ?_⟩
  rw [hna, hnb]
  exact hML

/-- The sorted ancestors tuple is the reverse of the walk's hit list, its
entries are strictly ascending with strictly increasing prefix lengths, and
its most specific entry is the longest-prefix-match result. -/
theorem get_prefix_and_supernets_spec {c : AWSIPPrefixes} {n : IPNetwork}
    {ps : List PrefixRecord} (h : c.get_prefix_and_supernets n none = some ps) :
    ps.Pairwise recordLtP ∧
    ps.Pairwise (fun a b => a.network.prefixlen < b.network.prefixlen) ∧
    ps.getLast? = c.getItem n := by
  unfold AWSIPPrefixes.get_prefix_and_supernets at h
  by_cases he : ((supernets n).filterMap c.getPrefix).isEmpty
  · rw [if_pos he] at h
    exact absurd h (by simp)
  · rw [if_neg he] at h
    obtain rfl : sortRecords ((supernets n).filterMap c.getPrefix) = ps :=
      Option.some.inj h
    have hpair := hits_pairwise c n
    have hdesc : ((supernets n).filterMap c.getPrefix).Pairwise
        (fun a b => recordLt b a = true) := hpair.imp (fun hx => hx.1)
    rw [sortRecords_eq_reverse hdesc]
    refine ⟨?_, ?_, ?_⟩
    · rw [List.pairwise_reverse]
      exact hdesc
    · rw [List.pairwise_reverse]
      exact hpair.imp (fun hx => hx.2)
    · rw [List.getLast?_reverse, head?_filterMap]
      rfl

/-! ## Constructor and filter lemmas -/

theorem mkAWSIPPrefixes_ok_fields {st : Option String} {cd : Option Nat}
    {v4 v6 : List PrefixRecord} {m : Option String} {c' : AWSIPPrefixes}
    (h : mkAWSIPPrefixes st cd v4 v6 m = .ok c') :
    c'.sync_token = st ∧ c'.create_date = cd ∧ c'.md5 = m ∧
    processPrefixes v4 = .ok c'.ipv4_prefixes ∧
    processPrefixes v6 = .ok c'.ipv6_prefixes := by
  unfold mkAWSIPPrefixes at h
  cases h4 : processPrefixes v4 with
  | error e =>
    rw [h4] at h
    exact absurd h (by simp [Bind.bind, Except.bind])
  | ok a =>
    rw [h4] at h
    cases h6 : processPrefixes v6 with
    | error e =>
      rw [h6] at h
      exact absurd h (by simp [Bind.bind, Except.bind])
    | ok b =>
      rw [h6] at h
      obtain rfl : (⟨st, cd, a, b, m⟩ : AWSIPPrefixes) = c' := by
        simpa [Bind.bind, Except.bind] using h
      exact ⟨rfl, rfl, rfl, by simp [h4], by simp [h6]⟩

theorem matchesFilter_iff {rs gs ss : Finset String} {p : PrefixRecord} :
    matchesFilter rs gs ss p = true ↔
      p.region ∈ rs ∧ p.network_border_group ∈ gs ∧ ∃ sv ∈ p.services, sv ∈ ss := by
  unfold matchesFilter
  simp [List.any_eq_true, and_assoc]

/-- A filtered sublist of a well-formed list is well formed. -/
theorem WfList.filter {l : List PrefixRecord} (h : WfList l) (f : PrefixRecord → Bool) :
    WfList (l.filter f) :=
  ⟨List.Pairwise.sublist (List.filter_sublist l) h.1,
    List.Nodup.sublist ((List.filter_sublist l).map (fun p => p.network)) h.2⟩

theorem WfList_nil : WfList ([] : List PrefixRecord) := by
  unfold WfList
  exact ⟨List.Pairwise.nil, by simp⟩

/-! ## Claim theorems -/

/-- C1 (amended): the longest-prefix-match lookup walks the chain of
supernets of the item network from the item prefix length down to `/1`
(the `/0` supernet is never probed), calls the exact lookup at each length
and returns the first (most specific) record found; if no length in that
range yields a record it fails with the not-found error. -/
theorem claim_c1_longest_match_walk (c : AWSIPPrefixes) (n : IPNetwork) :
    (c.getItem n = none ↔
      ∀ L, 1 ≤ L → L ≤ n.prefixlen → c.getPrefix (n.supernet L) = none) ∧
    (∀ r, c.getItem n = some r ↔
      ∃ L, 1 ≤ L ∧ L ≤ n.prefixlen ∧ c.getPrefix (n.supernet L) = some r ∧
        ∀ M, L < M → M ≤ n.prefixlen → c.getPrefix (n.supernet M) = none) := by
  rw [getItem_eq_findSome]
  exact findSome?_downRange _ _

/-- C1 counterexample: a collection holding only the `0.0.0.0/0` record.
Its `/0` supernet length does yield a record under the exact lookup, yet
the longest-prefix-match lookup of `10.0.0.0/8` fails with the not-found
error, because the walk stops at `/1` and never probes `/0`. -/
theorem claim_c1_counterexample :
    mkAWSIPPrefixes none none [rGlobal0] [] none = .ok cGlobal0 ∧
    cGlobal0.getPrefix (q8.supernet 0) = some rGlobal0 ∧
    cGlobal0.getItem q8 = none := by
  refine ⟨by decide, by decide, by decide⟩

/-- C3: every constructed collection stores, per IP version, a sequence
that is strictly sorted by the record total order and has pairwise-distinct
network keys. -/
theorem claim_c3_sorted_dedup {st : Option String} {cd : Option Nat}
    {l4 l6 : List PrefixRecord} {m : Option String} {c : AWSIPPrefixes}
    (h : mkAWSIPPrefixes st cd l4 l6 m = .ok c) :
    (c.ipv4_prefixes.Pairwise recordLtP ∧
      (c.ipv4_prefixes.map fun p => p.network).Nodup) ∧
    (c.ipv6_prefixes.Pairwise recordLtP ∧
      (c.ipv6_prefixes.map fun p => p.network).Nodup) := by
  obtain ⟨-, -, -, h4, h6⟩ := mkAWSIPPrefixes_ok_fields h
  exact ⟨processPrefixes_wf h4, processPrefixes_wf h6⟩

/-- C3 witness: building a collection from three records two of which share
the `10.0.0.0/8` network key. -/
theorem claim_c3_witness :
    (cC3.ipv4_prefixes.Pairwise recordLtP ∧
      (cC3.ipv4_prefixes.map fun p => p.network).Nodup) ∧
    (cC3.ipv6_prefixes.Pairwise recordLtP ∧
      (cC3.ipv6_prefixes.map fun p => p.network).Nodup) :=
  @claim_c3_sorted_dedup none none [r10slash16, rDupEC2, rDupS3] [] none cC3 (by decide)

/-- C4: on a list of two or more records the combiner fails unless all
records share the first record identity fields (network, region, network
border group); when they share them it produces one record with those
fields — hence of the same IP version — whose services are the strictly
sorted (so deduplicated) union of all the input service sets. -/
theorem claim_c4_combiner (first b : PrefixRecord) (rest : List PrefixRecord) :
    (¬ (∀ p ∈ b :: rest, p.network = first.network ∧ p.region = first.region ∧
        p.network_border_group = first.network_border_group) →
      ∃ e, combinePrefixes (first :: b :: rest) = .error e) ∧
    ((∀ p ∈ b :: rest, p.network = first.network ∧ p.region = first.region ∧
        p.network_border_group = first.network_border_group) →
      ∃ r, combinePrefixes (first :: b :: rest) = .ok r ∧
        r.network = first.network ∧ r.region = first.region ∧
        r.network_border_group = first.network_border_group ∧
        r.services.Pairwise (fun a b => a < b) ∧
        (∀ s, s ∈ r.services ↔ ∃ p ∈ first :: b :: rest, s ∈ p.services)) := by
  constructor
  · exact fun h => combinePrefixes_error_of_mismatch h
  · intro hall
    have hallb : (b :: rest).all (fun p =>
        p.network = first.network ∧ p.region = first.region ∧
          p.network_border_group = first.network_border_group) = true :=
      List.all_eq_true.mpr (fun p hp => by simpa using hall p hp)
    refine ⟨mkPrefixRecord first.network first.region first.network_border_group
        (.inr (sortStrings (((first :: b :: rest).flatMap fun p => p.services).dedup))),
      by rw [combinePrefixes_cons_cons, if_pos hallb], rfl, rfl, rfl, ?_, ?_⟩
    · show (sortStrings (sortStrings _)).Pairwise (fun a b => a < b)
      apply sortStrings_pairwise_lt
      exact ((sortStrings_perm _).nodup_iff).mpr (List.nodup_dedup _)
    · intro s
      show s ∈ sortStrings (sortStrings _) ↔ _
      rw [mem_sortStrings, mem_sortStrings, List.mem_dedup, List.mem_flatMap]

/-- C4 witness: combining the duplicate `10.0.0.0/8` records tagged `EC2`
and `S3`. -/
theorem claim_c4_witness :
    ∃ r, combinePrefixes (rDupEC2 :: rDupS3 :: []) = .ok r ∧
      r.network = rDupEC2.network ∧ r.region = rDupEC2.region ∧
      r.network_border_group = rDupEC2.network_border_group ∧
      r.services.Pairwise (fun a b => a < b) ∧
      (∀ s, s ∈ r.services ↔ ∃ p ∈ rDupEC2 :: rDupS3 :: [], s ∈ p.services) :=
  (claim_c4_combiner rDupEC2 rDupS3 []).2 (by decide)

/-- C5 (amended): a single-string services argument is stored as the
one-element sequence of that string; a collection argument is stored
sorted, with duplicates preserved (the constructor does not deduplicate). -/
theorem claim_c5_services_normalization (network : IPNetwork)
    (region network_border_group : String) :
    (∀ s : String,
      (mkPrefixRecord network region network_border_group (.inl s)).services = [s]) ∧
    (∀ l : List String,
      (mkPrefixRecord network region network_border_group (.inr l)).services.Sorted
          (fun a b => a ≤ b) ∧
        ((mkPrefixRecord network region network_border_group (.inr l)).services).Perm l) :=
  ⟨fun _ => rfl, fun l => ⟨sortStrings_sorted l, sortStrings_perm l⟩⟩

/-- C5 counterexample: a tuple services argument with a repeated element is
stored with the duplicate kept, not deduplicated as the claim states. -/
theorem claim_c5_counterexample :
    (mkPrefixRecord ⟨4, 0, 8⟩ "us-east-1" "us-east-1"
      (.inr ["AMAZON", "AMAZON"])).services = ["AMAZON", "AMAZON"] ∧
    ¬ (mkPrefixRecord ⟨4, 0, 8⟩ "us-east-1" "us-east-1"
      (.inr ["AMAZON", "AMAZON"])).services.Nodup := by
  refine ⟨by decide, by decide⟩

/-- C8: when the longest-prefix-match lookup returns a record, looking up
that record own network in the same collection returns the same record. -/
theorem claim_c8_idempotent {c : AWSIPPrefixes} {n : IPNetwork} {r : PrefixRecord}
    (h : c.getItem n = some r) : c.getItem r.network = some r := by
  rw [getItem_eq_findSome] at h
  obtain ⟨L, hL, hhit⟩ := List.exists_of_findSome?_eq_some h
  have hmem := mem_downRange.mp hL
  have hrn : r.network = n.supernet L := getPrefix_network hhit
  rw [getItem_eq_findSome]
  have hplen : r.network.prefixlen = L := by rw [hrn]; rfl
  rw [hplen]
  obtain ⟨L1, rfl⟩ : ∃ M, L = M + 1 := ⟨L - 1, by omega⟩
  rw [downRange_succ_head]
  have hfirst : c.getPrefix (r.network.supernet (L1 + 1)) = some r := by
    rw [hrn, supernet_supernet]
    exact hhit
  rw [List.findSome?_cons_of_isSome _ (by simp [hfirst])]
  exact hfirst

/-- C8 witness: `10.0.1.5` matches the `/16` record of `cTwo`; looking up
that record network again returns the same record. -/
theorem claim_c8_witness :
    AWSIPPrefixes.getItem cTwo r10slash16.network = some r10slash16 :=
  claim_c8_idempotent (n := q10) (by decide)

/-- C10: when no supernet length of the query yields an exact hit, the
ancestors lookup returns the caller default instead of failing, while the
longest-prefix-match lookup fails with the not-found error. -/
theorem claim_c10_ancestors_default {c : AWSIPPrefixes} {n : IPNetwork}
    (h : ∀ s ∈ supernets n, c.getPrefix s = none) :
    (∀ d, c.get_prefix_and_supernets n d = d) ∧ c.getItem n = none := by
  have hfm : (supernets n).filterMap c.getPrefix = [] :=
    List.filterMap_eq_nil_iff.mpr h
  constructor
  · intro d
    unfold AWSIPPrefixes.get_prefix_and_supernets
    rw [hfm]
    rfl
  · exact List.findSome?_eq_none_iff.mpr h

/-- C10 witness: the empty collection contains nothing, so the ancestors
lookup of `10.0.0.0/8` returns the default and the match lookup fails. -/
theorem claim_c10_witness :
    (∀ d, AWSIPPrefixes.get_prefix_and_supernets cEmpty q8 d = d) ∧
      AWSIPPrefixes.getItem cEmpty q8 = none :=
  claim_c10_ancestors_default (by decide)

/-- C2 (amended): every successful filter call carries the source
collection sync token and create date over unchanged, but does not carry
the content hash: the new collection md5 is `none` because the rebuild
omits the `md5` argument. -/
theorem claim_c2_filter_metadata {c c' : AWSIPPrefixes}
    {r g s : Option (List String)} {v : Option (List Nat)}
    (h : c.filter r g s v = .ok c') :
    c'.sync_token = c.sync_token ∧ c'.create_date = c.create_date ∧ c'.md5 = none := by
  unfold AWSIPPrefixes.filter at h
  split_ifs at h <;>
    · obtain ⟨h1, h2, h3, -, -⟩ := mkAWSIPPrefixes_ok_fields h
      exact ⟨h1, h2, h3⟩

/-- C2 witness: filtering `cMd5` with no arguments succeeds and keeps the
sync token and create date. -/
theorem claim_c2_witness :
    cFiltered.sync_token = cMd5.sync_token ∧
    cFiltered.create_date = cMd5.create_date ∧ cFiltered.md5 = none :=
  claim_c2_filter_metadata (c := cMd5) (r := none) (g := none) (s := none)
    (v := none) (by decide)

/-- C2 counterexample: the source collection carries an md5 hash, the
filter call succeeds, and the returned collection md5 differs from the
source md5 — the hash is not carried over unchanged. -/
theorem claim_c2_counterexample :
    AWSIPPrefixes.filter cMd5 none none none none = .ok cFiltered ∧
    cMd5.md5 = some "md5hash" ∧ cFiltered.md5 ≠ cMd5.md5 := by
  refine ⟨by decide, by decide, by decide⟩

/-- C6 (amended): on a well-formed collection, filter fails exactly when a
requested region, network border group or service value (after an unset
parameter defaults to all observed values) is not among the observed
values, or a requested version is outside `{4, 6}` — versions are checked
against the constant set `{4, 6}`, not against the versions present.
Otherwise it returns the collection of exactly the records whose region
and network border group are requested and whose services meet the
requested services, restricted to the requested versions. -/
theorem claim_c6_filter_semantics {c : AWSIPPrefixes} (hwf : Wf c)
    (r g s : Option (List String)) (v : Option (List Nat)) :
    ((∃ e, c.filter r g s v = .error e) ↔
      ¬ (effRegions c r ⊆ c.regions ∧
        effNetworkBorderGroups c g ⊆ c.network_border_groups ∧
        effServices c s ⊆ c.services ∧ effVersions v ⊆ ({4, 6} : Finset Nat))) ∧
    (∀ c', c.filter r g s v = .ok c' →
      (∀ p, p ∈ c'.ipv4_prefixes ↔ 4 ∈ effVersions v ∧ p ∈ c.ipv4_prefixes ∧
        p.region ∈ effRegions c r ∧
        p.network_border_group ∈ effNetworkBorderGroups c g ∧
        ∃ sv ∈ p.services, sv ∈ effServices c s) ∧
      (∀ p, p ∈ c'.ipv6_prefixes ↔ 6 ∈ effVersions v ∧ p ∈ c.ipv6_prefixes ∧
        p.region ∈ effRegions c r ∧
        p.network_border_group ∈ effNetworkBorderGroups c g ∧
        ∃ sv ∈ p.services, sv ∈ effServices c s)) := by
  by_cases h1 : effRegions c r ⊆ c.regions
  case neg =>
    have hfe : c.filter r g s v = .error
        "One or more of the provided region values do not exist in this set of AWS IP address ranges." := by
      unfold AWSIPPrefixes.filter
      rw [if_neg h1]
    rw [hfe]
    refine ⟨by simp [h1], fun c' hc' => absurd hc' (fun hc => Except.noConfusion hc)⟩
  by_cases h2 : effNetworkBorderGroups c g ⊆ c.network_border_groups
  case neg =>
    have hfe : c.filter r g s v = .error
        "One or more of the provided network_border_group values do not exist in this set of AWS IP address ranges." := by
      unfold AWSIPPrefixes.filter
      rw [if_pos h1, if_neg h2]
    rw [hfe]
    refine ⟨by simp [h1, h2], fun c' hc' => absurd hc' (fun hc => Except.noConfusion hc)⟩
  by_cases h3 : effServices c s ⊆ c.services
  case neg =>
    have hfe : c.filter r g s v = .error
        "One or more of the provided services do not exist in this set of AWS IP address ranges." := by
      unfold AWSIPPrefixes.filter
      rw [if_pos h1, if_pos h2, if_neg h3]
    rw [hfe]
    refine ⟨by simp [h1, h2, h3], fun c' hc' => absurd hc' (fun hc => Except.noConfusion hc)⟩
  by_cases h4 : effVersions v ⊆ ({4, 6} : Finset Nat)
  case neg =>
    have hfe : c.filter r g s v = .error
        "One or more of the provided versions do not exist in this set of AWS IP address ranges." := by
      unfold AWSIPPrefixes.filter
      rw [if_pos h1, if_pos h2, if_pos h3, if_neg h4]
    rw [hfe]
    refine ⟨by simp [h1, h2, h3, h4], fun c' hc' => absurd hc' (fun hc => Except.noConfusion hc)⟩
  have hfl4 : WfList (if 4 ∈ effVersions v then
      c.ipv4_prefixes.filter (matchesFilter (effRegions c r)
        (effNetworkBorderGroups c g) (effServices c s)) else []) := by
    split
    · exact hwf.1.filter _
    · exact WfList_nil
  have hfl6 : WfList (if 6 ∈ effVersions v then
      c.ipv6_prefixes.filter (matchesFilter (effRegions c r)
        (effNetworkBorderGroups c g) (effServices c s)) else []) := by
    split
    · exact hwf.2.filter _
    · exact WfList_nil
  have hfe : c.filter r g s v = .ok ⟨c.sync_token, c.create_date,
      (if 4 ∈ effVersions v then
        c.ipv4_prefixes.filter (matchesFilter (effRegions c r)
          (effNetworkBorderGroups c g) (effServices c s)) else []),
      (if 6 ∈ effVersions v then
        c.ipv6_prefixes.filter (matchesFilter (effRegions c r)
          (effNetworkBorderGroups c g) (effServices c s)) else []), none⟩ := by
    unfold AWSIPPrefixes.filter
    rw [if_pos h1, if_pos h2, if_pos h3, if_pos h4]
    unfold mkAWSIPPrefixes
    rw [processPrefixes_id hfl4.1 hfl4.2, processPrefixes_id hfl6.1 hfl6.2]
    rfl
  rw [hfe]
  constructor
  · simp [h1, h2, h3, h4]
  · intro c' hc'
    obtain rfl := Except.ok.inj hc'
    constructor
    · intro p
      by_cases hv4 : 4 ∈ effVersions v
      · simp only [hv4, if_true, true_and, List.mem_filter, matchesFilter_iff]
      · simp [hv4]
    · intro p
      by_cases hv6 : 6 ∈ effVersions v
      · simp only [hv6, if_true, true_and, List.mem_filter, matchesFilter_iff]
      · simp [hv6]

/-- C6 witness: requesting an unknown region on `cMd5` is rejected exactly
by the strict validation condition. -/
theorem claim_c6_witness :
    (∃ e, AWSIPPrefixes.filter cMd5 (some ["eu-west-1"]) none none none = .error e) ↔
      ¬ (effRegions cMd5 (some ["eu-west-1"]) ⊆ cMd5.regions ∧
        effNetworkBorderGroups cMd5 none ⊆ cMd5.network_border_groups ∧
        effServices cMd5 none ⊆ cMd5.services ∧
        effVersions none ⊆ ({4, 6} : Finset Nat)) :=
  (claim_c6_filter_semantics (c := cMd5) (by decide) (some ["eu-west-1"]) none none none).1

/-- C6 counterexample: `cMd5` has no IPv6 record, so version 6 is not
among the values present in the collection, yet filtering by version 6
succeeds instead of failing as the claim states. -/
theorem claim_c6_counterexample :
    (∀ p ∈ cMd5.ipv4_prefixes ++ cMd5.ipv6_prefixes, p.network.version ≠ 6) ∧
    (AWSIPPrefixes.filter cMd5 none none none (some [6])).isOk = true := by
  refine ⟨by decide, by decide⟩

/-- C7: when the ancestors lookup succeeds, the returned sequence is
strictly ascending in the record total order, its prefix lengths strictly
increase (shortest first), and its last, most specific element is the
longest-prefix-match result for the same item. -/
theorem claim_c7_ancestors_sorted {c : AWSIPPrefixes} {n : IPNetwork}
    {ps : List PrefixRecord} (h : c.get_prefix_and_supernets n none = some ps) :
    ps.Pairwise recordLtP ∧
    ps.Pairwise (fun a b => a.network.prefixlen < b.network.prefixlen) ∧
    ps.getLast? = c.getItem n :=
  get_prefix_and_supernets_spec h

/-- C7 witness: in `cTwo` the address `10.0.1.5` has ancestors
`[10.0.0.0/8, 10.0.0.0/16]`, in that order, and the `/16` record is the
longest-prefix match. -/
theorem claim_c7_witness :
    AWSIPPrefixes.get_prefix_and_supernets cTwo q10 none = some psC7 ∧
    (psC7.Pairwise recordLtP ∧
      psC7.Pairwise (fun a b => a.network.prefixlen < b.network.prefixlen) ∧
      psC7.getLast? = AWSIPPrefixes.getItem cTwo q10) :=
  ⟨by decide, claim_c7_ancestors_sorted (by decide)⟩

/-- C9: an explicitly empty collection of values for a filter parameter is
treated the same as omitting the parameter. -/
theorem claim_c9_empty_parameter (c : AWSIPPrefixes) (r g s : Option (List String))
    (v : Option (List Nat)) :
    c.filter (some []) g s v = c.filter none g s v ∧
    c.filter r (some []) s v = c.filter r none s v ∧
    c.filter r g (some []) v = c.filter r g none v ∧
    c.filter r g s (some []) = c.filter r g s none := by
  have hr : effRegions c (some []) = effRegions c none := by
    simp [effRegions, normalizeToSet]
  have hg : effNetworkBorderGroups c (some []) = effNetworkBorderGroups c none := by
    simp [effNetworkBorderGroups, normalizeToSet]
  have hs : effServices c (some []) = effServices c none := by
    simp [effServices, normalizeToSet]
  have hv : effVersions (some ([] : List Nat)) = effVersions none := by
    simp [effVersions, normalizeToSet]
  refine ⟨?_, ?_, ?_, ?_⟩ <;> unfold AWSIPPrefixes.filter
  · rw [hr]
  · rw [hg]
  · rw [hs]
  · rw [hv]

end AWSIPRanges
